import Mathlib

/-!
Shallow embedding of the reconciliation core of the `seller-apis` repository
(`src/seller.py` and `src/market.py`): quantity/price normalization,
`create_stocks` / `create_prices`, the `divide` chunking generator, the
`get_offer_ids` pagination loops of both marketplaces, and the
`upload_stocks` orchestration with HTTP status checking.

Feed rows (`watch_remnants` entries) are modelled with their three fields
already string-coerced, matching how the Python code reads them
(`str(watch.get("Код"))`, quantity text, price text).  Fallible Python
operations (`int(...)` parsing) are modelled with `Option`; the in-place
mutation of the caller's `offer_ids` list by `list.remove` is modelled by
returning the final state of that list alongside the produced updates.
-/

set_option autoImplicit false

namespace SellerApis

/-- A transport-layer failure (`requests.exceptions.HTTPError` raised by
`response.raise_for_status()`), carrying the HTTP status code. -/
structure TransportErr where
  status : Nat
  deriving DecidableEq, Repr

/-- `requests.Response.raise_for_status`: raises exactly when the status
code is in 400..599 (client or server error); 1xx/2xx/3xx do not raise. -/
def raise_for_status (status : Nat) : Except TransportErr Unit :=
  if 400 ≤ status ∧ status < 600 then Except.error ⟨status⟩ else Except.ok ()

/-- Digit-run validity for Python `int(...)` bodies: all characters are
ASCII digits or underscores, the run is nonempty, starts and ends with a
digit, and has no two consecutive underscores (so every underscore sits
between two digits). -/
def pyDigitsOk (cs : List Char) : Bool :=
  !cs.isEmpty &&
  cs.all (fun c => c.isDigit || c == '_') &&
  (match cs.head? with | some c => c.isDigit | none => false) &&
  (match cs.getLast? with | some c => c.isDigit | none => false) &&
  noDoubleUnderscore cs
where
  noDoubleUnderscore : List Char → Bool
    | '_' :: '_' :: _ => false
    | _ :: rest => noDoubleUnderscore rest
    | [] => true

/-- Numeric value of a digit run once underscores are dropped. -/
def digitsVal (cs : List Char) : Nat :=
  (cs.filter Char.isDigit).foldl (fun acc c => acc * 10 + (c.toNat - 48)) 0

/-- Python `int(s)` on a string: strips surrounding whitespace, accepts an
optional single `+`/`-` sign followed by a digit run (underscores allowed
between digits), and fails (`ValueError`) on anything else. -/
def pyIntParse (s : String) : Option Int :=
  let cs := (s.toList.dropWhile Char.isWhitespace).reverse.dropWhile Char.isWhitespace |>.reverse
  match cs with
  | '+' :: body => if pyDigitsOk body then some (Int.ofNat (digitsVal body)) else none
  | '-' :: body => if pyDigitsOk body then some (-(Int.ofNat (digitsVal body))) else none
  | body => if pyDigitsOk body then some (Int.ofNat (digitsVal body)) else none

/-- Quantity normalization shared by both `create_stocks` implementations
(`src/seller.py` lines 193-199, `src/market.py` lines 173-179):
`">10"` maps to 100, `"1"` maps to 0, anything else goes through
`int(...)` and fails with `ValueError` when unparseable. -/
def normalizeQty (count : String) : Option Int :=
  if count = ">10" then some 100
  else if count = "1" then some 0
  else pyIntParse count

/-- One row of the supplier feed, fields as the string coercions the code
applies: `kod` = `str(watch.get("Код"))`, `kolichestvo` = the quantity
text, `cena` = the price text. -/
structure Watch where
  kod : String
  kolichestvo : String
  cena : String
  deriving DecidableEq, Repr

/-- `price_conversion` (`src/seller.py` lines 236-248):
`re.sub("[^0-9]", "", price.split(".")[0])` — keep the prefix before the
first `.`, then drop every non-ASCII-digit character. -/
def price_conversion (price : String) : String :=
  String.mk ((price.toList.takeWhile (fun c => c ≠ '.')).filter Char.isDigit)

namespace Seller

/-- One Ozon stock update `{"offer_id": ..., "stock": ...}`. -/
structure Stock where
  offer_id : String
  stock : Int
  deriving DecidableEq, Repr

/-- One Ozon price update (`src/seller.py` lines 225-231). -/
structure Price where
  auto_action_enabled : String
  currency_code : String
  offer_id : String
  old_price : String
  price : String
  deriving DecidableEq, Repr

/-- The matching loop of `create_stocks` (`src/seller.py` lines 191-201):
for each feed row whose code is in the current `offer_ids` list, emit a
stock entry with the normalized quantity and remove the first occurrence
of the code from the list.  Returns the emitted entries and the final
state of `offer_ids`; `none` models the `ValueError` from `int(...)`. -/
def createStocksLoop : List Watch → List String → Option (List Stock × List String)
  | [], offerIds => some ([], offerIds)
  | w :: rest, offerIds =>
    if w.kod ∈ offerIds then
      match normalizeQty w.kolichestvo with
      | none => none
      | some q =>
        match createStocksLoop rest (offerIds.erase w.kod) with
        | none => none
        | some (st, fin) => some ({ offer_id := w.kod, stock := q } :: st, fin)
    else createStocksLoop rest offerIds

/-- `create_stocks` (`src/seller.py` lines 174-204): the matching loop,
then one zero-stock entry per identifier still left in `offer_ids`.
The second component is the final state of the caller's `offer_ids`
list (the function mutates it in place via `offer_ids.remove`). -/
def create_stocks (watch_remnants : List Watch) (offer_ids : List String) :
    Option (List Stock × List String) :=
  match createStocksLoop watch_remnants offer_ids with
  | none => none
  | some (st, fin) =>
    some (st ++ fin.map (fun oid => { offer_id := oid, stock := 0 }), fin)

/-- `create_prices` (`src/seller.py` lines 207-233): one price entry per
feed row whose code is in `offer_ids`; no removal, no mutation. -/
def create_prices (watch_remnants : List Watch) (offer_ids : List String) :
    List Price :=
  watch_remnants.filterMap fun w =>
    if w.kod ∈ offer_ids then
      some { auto_action_enabled := "UNKNOWN", currency_code := "RUB",
             offer_id := w.kod, old_price := "0",
             price := price_conversion w.cena }
    else none

end Seller

/-- Fuel-indexed form of the loop of `divide` (`src/seller.py` lines
251-269): `for i in range(0, len(lst), n): yield lst[i : i + n]`.  Each
iteration takes the next `n`-slice and advances by `n`; the fuel only
bounds the recursion depth and never runs out when it starts at the
list's length and `n > 0`. -/
def divideAux {α : Type} : Nat → List α → Nat → List (List α)
  | _, [], _ => []
  | _, _ :: _, 0 => []
  | 0, _ :: _, _ + 1 => []
  | fuel + 1, a :: l, m + 1 =>
    ((a :: l).take (m + 1)) :: divideAux fuel ((a :: l).drop (m + 1)) (m + 1)

/-- The chunk sequence yielded by `divide(lst, n)` for `n > 0`. -/
def divideGo {α : Type} (lst : List α) (n : Nat) : List (List α) :=
  divideAux lst.length lst n

/-- `divide` as called by the uploaders: `none` models the `ValueError`
from `range(0, len(lst), 0)` when the step is zero. -/
def divide {α : Type} (lst : List α) (n : Nat) : Option (List (List α)) :=
  if n = 0 then none else some (divideGo lst n)

namespace Market

/-- One `items` element of a Yandex Market stock update
(`src/market.py` lines 184-190): `{"count": ..., "type": "FIT",
"updatedAt": date}`. -/
structure StockItem where
  count : Int
  type : String
  updatedAt : String
  deriving DecidableEq, Repr

/-- One Yandex Market stock update `{"sku", "warehouseId", "items"}`. -/
structure Stock where
  sku : String
  warehouseId : String
  items : List StockItem
  deriving DecidableEq, Repr

/-- The matching loop of `market.create_stocks` (`src/market.py` lines
171-193), analogous to the seller loop but with the Market payload shape.
`date` is the string `datetime.datetime.utcnow().replace(microsecond=0)
.isoformat() + "Z"` sampled once at entry; it is made an explicit
parameter here because it is the one clock-dependent input. -/
def createStocksLoop (warehouse_id date : String) :
    List Watch → List String → Option (List Stock × List String)
  | [], offerIds => some ([], offerIds)
  | w :: rest, offerIds =>
    if w.kod ∈ offerIds then
      match normalizeQty w.kolichestvo with
      | none => none
      | some q =>
        match createStocksLoop warehouse_id date rest (offerIds.erase w.kod) with
        | none => none
        | some (st, fin) =>
          some ({ sku := w.kod, warehouseId := warehouse_id,
                  items := [{ count := q, type := "FIT", updatedAt := date }] } :: st,
                fin)
    else createStocksLoop warehouse_id date rest offerIds

/-- `market.create_stocks` (`src/market.py` lines 152-208): matching loop,
then a zero-count entry per remaining identifier, all stamped with the
same `date`.  Second component is the final state of the caller's
`offer_ids` list. -/
def create_stocks (watch_remnants : List Watch) (offer_ids : List String)
    (warehouse_id date : String) : Option (List Stock × List String) :=
  match createStocksLoop warehouse_id date watch_remnants offer_ids with
  | none => none
  | some (st, fin) =>
    some (st ++ fin.map (fun oid =>
            { sku := oid, warehouseId := warehouse_id,
              items := [{ count := 0, type := "FIT", updatedAt := date }] }),
          fin)

/-- A stock item with the `updatedAt` timestamp field dropped. -/
structure StockItemNoTime where
  count : Int
  type : String
  deriving DecidableEq, Repr

/-- A stock update with the timestamp dropped from every item. -/
structure StockNoTime where
  sku : String
  warehouseId : String
  items : List StockItemNoTime
  deriving DecidableEq, Repr

/-- Erase the `updatedAt` field of a Market stock update. -/
def stripTime (s : Stock) : StockNoTime :=
  { sku := s.sku, warehouseId := s.warehouseId,
    items := s.items.map (fun it => { count := it.count, type := it.type }) }

end Market

/-- One product entry of an Ozon listing page; only the `offer_id` field
is read by `get_offer_ids` (`src/seller.py` line 79). -/
structure Product where
  offer_id : String
  deriving DecidableEq, Repr

/-- One response of the Ozon `product/list` endpoint as consumed by
`seller.get_offer_ids`: the `items`, `total` and `last_id` fields. -/
structure SellerPage where
  items : List Product
  total : Nat
  last_id : String
  deriving DecidableEq, Repr

/-- The pagination loop of `seller.get_offer_ids` (`src/seller.py` lines
68-76) against a server modelled as the sequence of pages it serves:
extend the accumulator with the page's items and stop when `total`
equals the accumulated length, else request the next page.  Returns the
accumulated products and the number of requests made; `none` models the
loop running past every page the server can serve (nontermination). -/
def sellerPaginate : List SellerPage → List Product → Option (List Product × Nat)
  | [], _ => none
  | p :: rest, acc =>
    let acc2 := acc ++ p.items
    if p.total = acc2.length then some (acc2, 1)
    else match sellerPaginate rest acc2 with
         | none => none
         | some (res, k) => some (res, k + 1)

/-- `seller.get_offer_ids` (`src/seller.py` lines 52-80): run the
pagination loop from an empty accumulator and the first page, then
extract the `offer_id` of every accumulated product. -/
def seller_get_offer_ids (pages : List SellerPage) : Option (List String × Nat) :=
  match sellerPaginate pages [] with
  | none => none
  | some (prods, k) => some (prods.map Product.offer_id, k)

/-- The nested `offer` object of a Market offer-mapping entry; only
`shopSku` is read (`src/market.py` line 148). -/
structure MOffer where
  shopSku : String
  deriving DecidableEq, Repr

/-- One `offerMappingEntries` element of a Market listing page. -/
structure MEntry where
  offer : MOffer
  deriving DecidableEq, Repr

/-- One response of the Market `offer-mapping-entries` endpoint as
consumed by `market.get_offer_ids`: the entries and
`paging.nextPageToken`. -/
structure MarketPage where
  offerMappingEntries : List MEntry
  nextPageToken : String
  deriving DecidableEq, Repr

/-- The pagination loop of `market.get_offer_ids` (`src/market.py` lines
138-145): extend the accumulator with the page's entries and stop when
`nextPageToken` is empty (Python `if not page`), else request the next
page.  Returns accumulated entries and request count; `none` models
running past every page the server can serve. -/
def marketPaginate : List MarketPage → List MEntry → Option (List MEntry × Nat)
  | [], _ => none
  | p :: rest, acc =>
    let acc2 := acc ++ p.offerMappingEntries
    if p.nextPageToken = "" then some (acc2, 1)
    else match marketPaginate rest acc2 with
         | none => none
         | some (res, k) => some (res, k + 1)

/-- `market.get_offer_ids` (`src/market.py` lines 121-149). -/
def market_get_offer_ids (pages : List MarketPage) : Option (List String × Nat) :=
  match marketPaginate pages [] with
  | none => none
  | some (entries, k) => some (entries.map (fun e => e.offer.shopSku), k)

/-- The listing side of a mocked Ozon server for `upload_stocks`:
every `product/list` response carries this HTTP status, and on success
the body pages are served in order. -/
structure SellerListServer where
  status : Nat
  pages : List SellerPage
  deriving Repr

/-- `seller.upload_stocks` (`src/seller.py` lines 291-308) up to its
upload calls: first `get_offer_ids` (whose `get_product_list` calls
`response.raise_for_status()`, `src/seller.py` lines 46-47), then
`create_stocks`, then one `update_stocks` call per chunk of
`divide(stocks, 100)`.  Returns the list of upload-call payloads made
and the transport error, if one was raised; `none` in the first
component position stays `[]` whenever the flow aborts before any
upload. -/
def upload_stocks_flow (srv : SellerListServer) (watch_remnants : List Watch) :
    List (List Seller.Stock) × Option TransportErr :=
  match raise_for_status srv.status with
  | Except.error e => ([], some e)
  | Except.ok _ =>
    match seller_get_offer_ids srv.pages with
    | none => ([], none)
    | some (offerIds, _) =>
      match Seller.create_stocks watch_remnants offerIds with
      | none => ([], none)
      | some (stocks, _) => (divideGo stocks 100, none)

/-- `seller.upload_prices` (`src/seller.py` lines 272-288) up to its
upload calls: `get_offer_ids`, then `create_prices`, then one
`update_price` call per chunk of `divide(prices, 1000)`. -/
def upload_prices_flow (srv : SellerListServer) (watch_remnants : List Watch) :
    List (List Seller.Price) × Option TransportErr :=
  match raise_for_status srv.status with
  | Except.error e => ([], some e)
  | Except.ok _ =>
    match seller_get_offer_ids srv.pages with
    | none => ([], none)
    | some (offerIds, _) =>
      (divideGo (Seller.create_prices watch_remnants offerIds) 1000, none)

namespace Seller

theorem createStocksLoop_perm :
    ∀ (ws : List Watch) (ids : List String) (st : List Stock) (fin : List String),
      createStocksLoop ws ids = some (st, fin) →
      List.Perm (st.map Stock.offer_id ++ fin) ids := by
  intro ws
  induction ws with
  | nil =>
    intro ids st fin h
    simp only [createStocksLoop, Option.some.injEq, Prod.mk.injEq] at h
    simp [← h.1, ← h.2]
  | cons w rest ih =>
    intro ids st fin h
    simp only [createStocksLoop] at h
    by_cases hmem : w.kod ∈ ids
    · simp only [if_pos hmem] at h
      cases hq : normalizeQty w.kolichestvo with
      | none => simp [hq] at h
      | some q =>
        simp only [hq] at h
        cases hrec : createStocksLoop rest (ids.erase w.kod) with
        | none => simp [hrec] at h
        | some r =>
          obtain ⟨st', fin'⟩ := r
          simp only [hrec, Option.some.injEq, Prod.mk.injEq] at h
          obtain ⟨hst, hfin⟩ := h
          subst hst hfin
          have hperm := ih (ids.erase w.kod) st' fin' hrec
          simp only [List.map_cons, List.cons_append]
          exact (hperm.cons w.kod).trans (List.perm_cons_erase hmem).symm
    · simp only [if_neg hmem] at h
      exact ih ids st fin h

theorem createStocksLoop_mem_codes :
    ∀ (ws : List Watch) (ids : List String) (st : List Stock) (fin : List String),
      createStocksLoop ws ids = some (st, fin) →
      List.Sublist (st.map Stock.offer_id) (ws.map Watch.kod) := by
  intro ws
  induction ws with
  | nil =>
    intro ids st fin h
    simp only [createStocksLoop, Option.some.injEq, Prod.mk.injEq] at h
    simp [← h.1]
  | cons w rest ih =>
    intro ids st fin h
    simp only [createStocksLoop] at h
    by_cases hmem : w.kod ∈ ids
    · simp only [if_pos hmem] at h
      cases hq : normalizeQty w.kolichestvo with
      | none => simp [hq] at h
      | some q =>
        simp only [hq] at h
        cases hrec : createStocksLoop rest (ids.erase w.kod) with
        | none => simp [hrec] at h
        | some r =>
          obtain ⟨st', fin'⟩ := r
          simp only [hrec, Option.some.injEq, Prod.mk.injEq] at h
          obtain ⟨hst, hfin⟩ := h
          subst hst hfin
          simp only [List.map_cons]
          exact (ih _ st' fin' hrec).cons₂ w.kod
    · simp only [if_neg hmem] at h
      simp only [List.map_cons]
      exact (ih ids st fin h).cons w.kod

theorem createStocksLoop_fin_sublist :
    ∀ (ws : List Watch) (ids : List String) (st : List Stock) (fin : List String),
      createStocksLoop ws ids = some (st, fin) →
      List.Sublist fin ids := by
  intro ws
  induction ws with
  | nil =>
    intro ids st fin h
    simp only [createStocksLoop, Option.some.injEq, Prod.mk.injEq] at h
    simp [← h.2]
  | cons w rest ih =>
    intro ids st fin h
    simp only [createStocksLoop] at h
    by_cases hmem : w.kod ∈ ids
    · simp only [if_pos hmem] at h
      cases hq : normalizeQty w.kolichestvo with
      | none => simp [hq] at h
      | some q =>
        simp only [hq] at h
        cases hrec : createStocksLoop rest (ids.erase w.kod) with
        | none => simp [hrec] at h
        | some r =>
          obtain ⟨st', fin'⟩ := r
          simp only [hrec, Option.some.injEq, Prod.mk.injEq] at h
          obtain ⟨hst, hfin⟩ := h
          subst hst hfin
          exact (ih _ st' fin' hrec).trans (List.erase_sublist _ _)
    · simp only [if_neg hmem] at h
      exact ih ids st fin h

theorem map_offer_id_zero (l : List String) :
    (l.map (fun oid => ({ offer_id := oid, stock := 0 } : Stock))).map Stock.offer_id = l := by
  induction l with
  | nil => rfl
  | cons a t ih => simp [ih]

theorem create_stocks_map_perm {F : List Watch} {I : List String}
    {S : List Stock} {fin : List String}
    (h : create_stocks F I = some (S, fin)) :
    List.Perm (S.map Stock.offer_id) I := by
  unfold create_stocks at h
  cases hl : createStocksLoop F I with
  | none => simp [hl] at h
  | some r =>
    obtain ⟨st, fin'⟩ := r
    simp only [hl, Option.some.injEq, Prod.mk.injEq] at h
    obtain ⟨hS, hfin⟩ := h
    subst hS hfin
    have hperm := createStocksLoop_perm F I st _ hl
    rw [List.map_append, map_offer_id_zero]
    exact hperm

theorem createStocksLoop_sound :
    ∀ (ws : List Watch) (ids : List String) (st : List Stock) (fin : List String),
      createStocksLoop ws ids = some (st, fin) →
      ∀ s ∈ st, ∃ w ∈ ws, w.kod = s.offer_id ∧
        normalizeQty w.kolichestvo = some s.stock := by
  intro ws
  induction ws with
  | nil =>
    intro ids st fin h s hs
    simp only [createStocksLoop, Option.some.injEq, Prod.mk.injEq] at h
    rw [← h.1] at hs
    exact absurd hs (List.not_mem_nil s)
  | cons w rest ih =>
    intro ids st fin h s hs
    simp only [createStocksLoop] at h
    by_cases hmem : w.kod ∈ ids
    · simp only [if_pos hmem] at h
      cases hq : normalizeQty w.kolichestvo with
      | none => simp [hq] at h
      | some q =>
        simp only [hq] at h
        cases hrec : createStocksLoop rest (ids.erase w.kod) with
        | none => simp [hrec] at h
        | some r =>
          obtain ⟨st', fin'⟩ := r
          simp only [hrec, Option.some.injEq, Prod.mk.injEq] at h
          obtain ⟨hst, hfin⟩ := h
          subst hst
          rcases List.mem_cons.mp hs with hs1 | hs2
          · subst hs1
            exact ⟨w, List.mem_cons_self w rest, rfl, hq⟩
          · obtain ⟨w', hw', hprop⟩ := ih _ st' fin' hrec s hs2
            exact ⟨w', List.mem_cons_of_mem w hw', hprop⟩
    · simp only [if_neg hmem] at h
      obtain ⟨w', hw', hprop⟩ := ih ids st fin h s hs
      exact ⟨w', List.mem_cons_of_mem w hw', hprop⟩

end Seller

/-- C1: for every feed-record sequence `F` and identifier sequence `I`,
when `create_stocks F I` succeeds it produces exactly `I.length` stock
updates, each identifier of `I` is covered exactly as often as it occurs
in `I` (exactly once for duplicate-free `I`), every stock update whose
code does not occur in the feed has quantity 0, `create_prices` on a
fresh copy of `I` produces at most `F.length` price updates, each for an
identifier that is both in `I` and in the feed (no price update for
unmatched identifiers), and the stock updates decompose into the matched
part — each of whose quantities is the normalized quantity of a feed
record with the same code — followed by the zero-stock defaults. -/
theorem C1_reconcile_coverage (F : List Watch) (I : List String)
    (S : List Seller.Stock) (fin : List String)
    (h : Seller.create_stocks F I = some (S, fin)) :
    S.length = I.length ∧
    (∀ x : String, (S.map Seller.Stock.offer_id).count x = I.count x) ∧
    (∀ s ∈ S, s.offer_id ∉ F.map Watch.kod → s.stock = 0) ∧
    (Seller.create_prices F I).length ≤ F.length ∧
    (∀ p ∈ Seller.create_prices F I,
      p.offer_id ∈ I ∧ p.offer_id ∈ F.map Watch.kod) ∧
    (∃ st : List Seller.Stock,
      Seller.createStocksLoop F I = some (st, fin) ∧
      S = st ++ fin.map (fun oid => { offer_id := oid, stock := 0 }) ∧
      ∀ s ∈ st, ∃ w ∈ F, w.kod = s.offer_id ∧
        normalizeQty w.kolichestvo = some s.stock) := by
  have hperm := Seller.create_stocks_map_perm h
  unfold Seller.create_stocks at h
  cases hl : Seller.createStocksLoop F I with
  | none => simp [hl] at h
  | some r =>
    obtain ⟨st, fin'⟩ := r
    simp only [hl, Option.some.injEq, Prod.mk.injEq] at h
    obtain ⟨hS, hfin⟩ := h
    subst hfin
    refine ⟨?_, fun x => hperm.count_eq x, ?_, ?_, ?_, st, rfl, hS.symm, ?_⟩
    · have := hperm.length_eq
      simpa using this
    · intro s hs hnot
      rw [← hS] at hs
      rcases List.mem_append.mp hs with hst | hzero
      · exfalso
        apply hnot
        have hsub := Seller.createStocksLoop_mem_codes F I st _ hl
        exact hsub.mem (List.mem_map_of_mem Seller.Stock.offer_id hst)
      · obtain ⟨oid, _, rfl⟩ := List.mem_map.mp hzero
        rfl
    · exact List.length_filterMap_le _ F
    · intro p hp
      unfold Seller.create_prices at hp
      obtain ⟨w, hw, hwp⟩ := List.mem_filterMap.mp hp
      by_cases hmem : w.kod ∈ I
      · simp only [if_pos hmem, Option.some.injEq] at hwp
        subst hwp
        exact ⟨hmem, List.mem_map_of_mem Watch.kod hw⟩
      · simp [if_neg hmem] at hwp
    · exact Seller.createStocksLoop_sound F I st _ hl

/-- Witness for C1 at the spec's end-to-end scenario: feed
`[(A1, >10, 100.00), (A2, 1, 50.00)]`, identifiers `[A1, A2, A3]`. -/
theorem C1_reconcile_coverage_witness :
    ([{ offer_id := "A1", stock := 100 }, { offer_id := "A2", stock := 0 },
      { offer_id := "A3", stock := 0 }] : List SellerApis.Seller.Stock).length =
      (["A1", "A2", "A3"] : List String).length ∧
    (∀ x : String,
      (([{ offer_id := "A1", stock := 100 }, { offer_id := "A2", stock := 0 },
         { offer_id := "A3", stock := 0 }] : List SellerApis.Seller.Stock).map
         SellerApis.Seller.Stock.offer_id).count x =
        (["A1", "A2", "A3"] : List String).count x) ∧
    (∀ s ∈ ([{ offer_id := "A1", stock := 100 }, { offer_id := "A2", stock := 0 },
             { offer_id := "A3", stock := 0 }] : List SellerApis.Seller.Stock),
      s.offer_id ∉ ([⟨"A1", ">10", "100.00"⟩, ⟨"A2", "1", "50.00"⟩] :
        List Watch).map Watch.kod → s.stock = 0) ∧
    (Seller.create_prices [⟨"A1", ">10", "100.00"⟩, ⟨"A2", "1", "50.00"⟩]
        ["A1", "A2", "A3"]).length ≤
      ([⟨"A1", ">10", "100.00"⟩, ⟨"A2", "1", "50.00"⟩] : List Watch).length ∧
    (∀ p ∈ Seller.create_prices [⟨"A1", ">10", "100.00"⟩, ⟨"A2", "1", "50.00"⟩]
        ["A1", "A2", "A3"],
      p.offer_id ∈ (["A1", "A2", "A3"] : List String) ∧
        p.offer_id ∈ ([⟨"A1", ">10", "100.00"⟩, ⟨"A2", "1", "50.00"⟩] :
          List Watch).map Watch.kod) ∧
    (∃ st : List Seller.Stock,
      Seller.createStocksLoop [⟨"A1", ">10", "100.00"⟩, ⟨"A2", "1", "50.00"⟩]
          ["A1", "A2", "A3"] = some (st, ["A3"]) ∧
      ([{ offer_id := "A1", stock := 100 }, { offer_id := "A2", stock := 0 },
        { offer_id := "A3", stock := 0 }] : List SellerApis.Seller.Stock) =
        st ++ (["A3"] : List String).map
          (fun oid => { offer_id := oid, stock := 0 }) ∧
      ∀ s ∈ st,
        ∃ w ∈ ([⟨"A1", ">10", "100.00"⟩, ⟨"A2", "1", "50.00"⟩] : List Watch),
          w.kod = s.offer_id ∧ normalizeQty w.kolichestvo = some s.stock) :=
  C1_reconcile_coverage
    [⟨"A1", ">10", "100.00"⟩, ⟨"A2", "1", "50.00"⟩]
    ["A1", "A2", "A3"]
    [{ offer_id := "A1", stock := 100 }, { offer_id := "A2", stock := 0 },
     { offer_id := "A3", stock := 0 }]
    ["A3"]
    (by decide)

namespace Market

theorem stocksLoop_perm (wh d : String) :
    ∀ (ws : List Watch) (ids : List String) (st : List Stock) (fin : List String),
      createStocksLoop wh d ws ids = some (st, fin) →
      List.Perm (st.map Stock.sku ++ fin) ids := by
  intro ws
  induction ws with
  | nil =>
    intro ids st fin h
    simp only [createStocksLoop, Option.some.injEq, Prod.mk.injEq] at h
    simp [← h.1, ← h.2]
  | cons w rest ih =>
    intro ids st fin h
    simp only [createStocksLoop] at h
    by_cases hmem : w.kod ∈ ids
    · simp only [if_pos hmem] at h
      cases hq : normalizeQty w.kolichestvo with
      | none => simp [hq] at h
      | some q =>
        simp only [hq] at h
        cases hrec : createStocksLoop wh d rest (ids.erase w.kod) with
        | none => simp [hrec] at h
        | some r =>
          obtain ⟨st', fin'⟩ := r
          simp only [hrec, Option.some.injEq, Prod.mk.injEq] at h
          obtain ⟨hst, hfin⟩ := h
          subst hst hfin
          have hperm := ih (ids.erase w.kod) st' fin' hrec
          simp only [List.map_cons, List.cons_append]
          exact (hperm.cons w.kod).trans (List.perm_cons_erase hmem).symm
    · simp only [if_neg hmem] at h
      exact ih ids st fin h

theorem stocksLoop_mem_codes (wh d : String) :
    ∀ (ws : List Watch) (ids : List String) (st : List Stock) (fin : List String),
      createStocksLoop wh d ws ids = some (st, fin) →
      List.Sublist (st.map Stock.sku) (ws.map Watch.kod) := by
  intro ws
  induction ws with
  | nil =>
    intro ids st fin h
    simp only [createStocksLoop, Option.some.injEq, Prod.mk.injEq] at h
    simp [← h.1]
  | cons w rest ih =>
    intro ids st fin h
    simp only [createStocksLoop] at h
    by_cases hmem : w.kod ∈ ids
    · simp only [if_pos hmem] at h
      cases hq : normalizeQty w.kolichestvo with
      | none => simp [hq] at h
      | some q =>
        simp only [hq] at h
        cases hrec : createStocksLoop wh d rest (ids.erase w.kod) with
        | none => simp [hrec] at h
        | some r =>
          obtain ⟨st', fin'⟩ := r
          simp only [hrec, Option.some.injEq, Prod.mk.injEq] at h
          obtain ⟨hst, hfin⟩ := h
          subst hst hfin
          simp only [List.map_cons]
          exact (ih _ st' fin' hrec).cons₂ w.kod
    · simp only [if_neg hmem] at h
      simp only [List.map_cons]
      exact (ih ids st fin h).cons w.kod

theorem stocksLoop_fin_sublist (wh d : String) :
    ∀ (ws : List Watch) (ids : List String) (st : List Stock) (fin : List String),
      createStocksLoop wh d ws ids = some (st, fin) →
      List.Sublist fin ids := by
  intro ws
  induction ws with
  | nil =>
    intro ids st fin h
    simp only [createStocksLoop, Option.some.injEq, Prod.mk.injEq] at h
    simp [← h.2]
  | cons w rest ih =>
    intro ids st fin h
    simp only [createStocksLoop] at h
    by_cases hmem : w.kod ∈ ids
    · simp only [if_pos hmem] at h
      cases hq : normalizeQty w.kolichestvo with
      | none => simp [hq] at h
      | some q =>
        simp only [hq] at h
        cases hrec : createStocksLoop wh d rest (ids.erase w.kod) with
        | none => simp [hrec] at h
        | some r =>
          obtain ⟨st', fin'⟩ := r
          simp only [hrec, Option.some.injEq, Prod.mk.injEq] at h
          obtain ⟨hst, hfin⟩ := h
          subst hst hfin
          exact (ih _ st' fin' hrec).trans (List.erase_sublist _ _)
    · simp only [if_neg hmem] at h
      exact ih ids st fin h

theorem createStocksLoop_strip_date (wh d₁ d₂ : String) :
    ∀ (ws : List Watch) (ids : List String),
      (createStocksLoop wh d₁ ws ids).map (fun r => (r.1.map stripTime, r.2)) =
      (createStocksLoop wh d₂ ws ids).map (fun r => (r.1.map stripTime, r.2)) := by
  intro ws
  induction ws with
  | nil => intro ids; rfl
  | cons w rest ih =>
    intro ids
    simp only [createStocksLoop]
    by_cases hmem : w.kod ∈ ids
    · simp only [if_pos hmem]
      cases hq : normalizeQty w.kolichestvo with
      | none => rfl
      | some q =>
        have h := ih (ids.erase w.kod)
        cases h1 : createStocksLoop wh d₁ rest (ids.erase w.kod) with
        | none =>
          cases h2 : createStocksLoop wh d₂ rest (ids.erase w.kod) with
          | none => rfl
          | some r2 => rw [h1, h2] at h; simp at h
        | some r1 =>
          cases h2 : createStocksLoop wh d₂ rest (ids.erase w.kod) with
          | none => rw [h1, h2] at h; simp at h
          | some r2 =>
            obtain ⟨st1, fin1⟩ := r1
            obtain ⟨st2, fin2⟩ := r2
            rw [h1, h2] at h
            simp only [Option.map_some', Option.some.injEq, Prod.mk.injEq] at h
            simp only [Option.map_some', Option.some.injEq, Prod.mk.injEq,
              List.map_cons]
            refine ⟨?_, h.2⟩
            rw [h.1]
            simp [stripTime]
    · simp only [if_neg hmem]
      exact ih ids

theorem map_sku_zero (wh d : String) (l : List String) :
    (l.map (fun oid =>
        ({ sku := oid, warehouseId := wh,
           items := [{ count := 0, type := "FIT", updatedAt := d }] } : Stock))).map
      Stock.sku = l := by
  induction l with
  | nil => rfl
  | cons a t ih => simp [ih]

theorem create_stocks_sku_perm {F : List Watch} {I : List String} {wh d : String}
    {S : List Stock} {fin : List String}
    (h : create_stocks F I wh d = some (S, fin)) :
    List.Perm (S.map Stock.sku) I := by
  unfold create_stocks at h
  cases hl : createStocksLoop wh d F I with
  | none => simp [hl] at h
  | some r =>
    obtain ⟨st, fin'⟩ := r
    simp only [hl, Option.some.injEq, Prod.mk.injEq] at h
    obtain ⟨hS, hfin⟩ := h
    subst hS hfin
    have hperm := stocksLoop_perm wh d F I st _ hl
    rw [List.map_append, map_sku_zero]
    exact hperm

end Market

/-- C2 counterexample: `market.create_stocks` stamps every update with the
UTC time sampled at call entry (`src/market.py` line 170), so two calls of
the reconciliation with identical feed/identifier/warehouse inputs but
different clock readings produce different output sequences (the
`updatedAt` field differs), refuting the claim that two runs on the same
inputs are identical element for element in every field. -/
theorem C2_idempotence_counterexample :
    Market.create_stocks [⟨"A", "5", "10"⟩] ["A"] "W" "2024-01-01T00:00:00Z" ≠
    Market.create_stocks [⟨"A", "5", "10"⟩] ["A"] "W" "2024-01-01T00:00:01Z" := by
  decide

/-- C2 amended: calling the reconciliation twice with the same inputs
(fresh copies) yields identical output sequences up to the `updatedAt`
timestamp of Market stock updates, which records the UTC clock reading of
each call; with equal clock readings the outputs are identical, and the
seller-side `create_stocks`/`create_prices` (which take no clock input)
are fully deterministic.  Formally: the Market result with every
timestamp erased does not depend on the sampled date. -/
theorem C2_idempotence_amended (F : List Watch) (I : List String)
    (wh d₁ d₂ : String) :
    (Market.create_stocks F I wh d₁).map
        (fun r => (r.1.map Market.stripTime, r.2)) =
      (Market.create_stocks F I wh d₂).map
        (fun r => (r.1.map Market.stripTime, r.2)) := by
  unfold Market.create_stocks
  have h := Market.createStocksLoop_strip_date wh d₁ d₂ F I
  cases h1 : Market.createStocksLoop wh d₁ F I with
  | none =>
    cases h2 : Market.createStocksLoop wh d₂ F I with
    | none => rfl
    | some r2 => rw [h1, h2] at h; simp at h
  | some r1 =>
    cases h2 : Market.createStocksLoop wh d₂ F I with
    | none => rw [h1, h2] at h; simp at h
    | some r2 =>
      obtain ⟨st1, fin1⟩ := r1
      obtain ⟨st2, fin2⟩ := r2
      rw [h1, h2] at h
      simp only [Option.map_some', Option.some.injEq, Prod.mk.injEq] at h
      obtain ⟨hst, hfin⟩ := h
      subst hfin
      simp only [Option.map_some', Option.some.injEq, Prod.mk.injEq,
        List.map_append, List.map_map]
      refine ⟨?_, trivial⟩
      rw [hst]
      simp [Market.stripTime, Function.comp_def]

theorem Seller.create_stocks_fin {F : List Watch} {I : List String}
    {S : List Seller.Stock} {fin : List String}
    (h : Seller.create_stocks F I = some (S, fin)) :
    List.Sublist fin I ∧ (∀ x ∈ I, x ∉ fin → x ∈ F.map Watch.kod) := by
  unfold Seller.create_stocks at h
  cases hl : Seller.createStocksLoop F I with
  | none => simp [hl] at h
  | some r =>
    obtain ⟨st, fin'⟩ := r
    simp only [hl, Option.some.injEq, Prod.mk.injEq] at h
    obtain ⟨hS, hfin⟩ := h
    rw [hfin] at hl
    refine ⟨Seller.createStocksLoop_fin_sublist F I st fin hl, ?_⟩
    intro x hxI hxfin
    have hperm := Seller.createStocksLoop_perm F I st fin hl
    have hcount := hperm.count_eq x
    rw [List.count_append] at hcount
    have hfin0 : fin.count x = 0 := List.count_eq_zero.mpr hxfin
    have hIpos : 0 < I.count x := List.count_pos_iff.mpr hxI
    have hstpos : 0 < (st.map Seller.Stock.offer_id).count x := by omega
    have hxst : x ∈ st.map Seller.Stock.offer_id := List.count_pos_iff.mp hstpos
    exact (Seller.createStocksLoop_mem_codes F I st fin hl).mem hxst

theorem Market.create_stocks_fin_state {F : List Watch} {I : List String}
    {wh d : String} {S : List Market.Stock} {fin : List String}
    (h : Market.create_stocks F I wh d = some (S, fin)) :
    List.Sublist fin I ∧ (∀ x ∈ I, x ∉ fin → x ∈ F.map Watch.kod) := by
  unfold Market.create_stocks at h
  cases hl : Market.createStocksLoop wh d F I with
  | none => simp [hl] at h
  | some r =>
    obtain ⟨st, fin'⟩ := r
    simp only [hl, Option.some.injEq, Prod.mk.injEq] at h
    obtain ⟨hS, hfin⟩ := h
    rw [hfin] at hl
    refine ⟨Market.stocksLoop_fin_sublist wh d F I st fin hl, ?_⟩
    intro x hxI hxfin
    have hperm := Market.stocksLoop_perm wh d F I st fin hl
    have hcount := hperm.count_eq x
    rw [List.count_append] at hcount
    have hfin0 : fin.count x = 0 := List.count_eq_zero.mpr hxfin
    have hIpos : 0 < I.count x := List.count_pos_iff.mpr hxI
    have hstpos : 0 < (st.map Market.Stock.sku).count x := by omega
    have hxst : x ∈ st.map Market.Stock.sku := List.count_pos_iff.mp hstpos
    exact (Market.stocksLoop_mem_codes wh d F I st fin hl).mem hxst

/-- C3 counterexample: both `create_stocks` implementations call
`offer_ids.remove(...)` on the caller's list itself (`src/seller.py` line
201, `src/market.py` line 193) — no working copy is made.  On feed
`[(A, 5, 10)]` and identifiers `["A"]`, the caller's identifier list ends
as `[]`, not `["A"]`, refuting the claim that the caller's identifiers
list is unchanged after the call. -/
theorem C3_frame_counterexample :
    Seller.create_stocks [⟨"A", "5", "10"⟩] ["A"] =
      some ([{ offer_id := "A", stock := 5 }], []) ∧
    Market.create_stocks [⟨"A", "5", "10"⟩] ["A"] "W" "T" =
      some ([{ sku := "A", warehouseId := "W",
               items := [{ count := 5, type := "FIT", updatedAt := "T" }] }], []) ∧
    ([] : List String) ≠ ["A"] := by
  refine ⟨by decide, by decide, by decide⟩

/-- C3 amended: `create_stocks` never mutates the feed-record sequence
(the loops only read each record), but it does mutate the caller's
identifiers list in place; after the call that list is a sublist of the
original (first occurrences of matched codes removed, relative order
preserved), and every identifier removed from it occurs as a code in the
feed.  This holds for both marketplaces. -/
theorem C3_frame_amended (F : List Watch) (I : List String)
    (S : List Seller.Stock) (fin : List String)
    (wh d : String) (S' : List Market.Stock) (fin' : List String)
    (h : Seller.create_stocks F I = some (S, fin))
    (h' : Market.create_stocks F I wh d = some (S', fin')) :
    List.Sublist fin I ∧ (∀ x ∈ I, x ∉ fin → x ∈ F.map Watch.kod) ∧
    List.Sublist fin' I ∧ (∀ x ∈ I, x ∉ fin' → x ∈ F.map Watch.kod) := by
  obtain ⟨h1, h2⟩ := Seller.create_stocks_fin h
  obtain ⟨h3, h4⟩ := Market.create_stocks_fin_state h'
  exact ⟨h1, h2, h3, h4⟩

/-- Witness for C3 amended: feed `[(A, 5, 10)]`, identifiers `[A, B]`. -/
theorem C3_frame_amended_witness :
    List.Sublist ["B"] ["A", "B"] ∧
    (∀ x ∈ (["A", "B"] : List String), x ∉ (["B"] : List String) →
      x ∈ ([⟨"A", "5", "10"⟩] : List Watch).map Watch.kod) ∧
    List.Sublist ["B"] ["A", "B"] ∧
    (∀ x ∈ (["A", "B"] : List String), x ∉ (["B"] : List String) →
      x ∈ ([⟨"A", "5", "10"⟩] : List Watch).map Watch.kod) :=
  C3_frame_amended [⟨"A", "5", "10"⟩] ["A", "B"]
    [{ offer_id := "A", stock := 5 }, { offer_id := "B", stock := 0 }] ["B"]
    "W" "T"
    [{ sku := "A", warehouseId := "W",
       items := [{ count := 5, type := "FIT", updatedAt := "T" }] },
     { sku := "B", warehouseId := "W",
       items := [{ count := 0, type := "FIT", updatedAt := "T" }] }] ["B"]
    (by decide) (by decide)

/-- C4: quantity normalization maps `"100"` to 100, `">10"` to 100,
`"1"` to 0 and `"0"` to 0; for any quantity text that is not `">10"`,
not `"1"` and not a valid Python integer literal, the normalization
yields no value, and `create_stocks` (both marketplaces) fails with the
parse error instead of defaulting, whenever such a record matches. -/
theorem C4_quantity_normalization :
    normalizeQty "100" = some 100 ∧
    normalizeQty ">10" = some 100 ∧
    normalizeQty "1" = some 0 ∧
    normalizeQty "0" = some 0 ∧
    (∀ q : String, q ≠ ">10" → q ≠ "1" → pyIntParse q = none →
      normalizeQty q = none) ∧
    (∀ (w : Watch) (rest : List Watch) (ids : List String),
      w.kod ∈ ids → normalizeQty w.kolichestvo = none →
      Seller.create_stocks (w :: rest) ids = none) ∧
    (∀ (w : Watch) (rest : List Watch) (ids : List String) (wh d : String),
      w.kod ∈ ids → normalizeQty w.kolichestvo = none →
      Market.create_stocks (w :: rest) ids wh d = none) := by
  refine ⟨by decide, by decide, by decide, by decide, ?_, ?_, ?_⟩
  · intro q h1 h2 h3
    unfold normalizeQty
    rw [if_neg h1, if_neg h2]
    exact h3
  · intro w rest ids hmem hq
    have hl : Seller.createStocksLoop (w :: rest) ids = none := by
      unfold Seller.createStocksLoop
      rw [if_pos hmem, hq]
    unfold Seller.create_stocks
    rw [hl]
  · intro w rest ids wh d hmem hq
    have hl : Market.createStocksLoop wh d (w :: rest) ids = none := by
      unfold Market.createStocksLoop
      rw [if_pos hmem, hq]
    unfold Market.create_stocks
    rw [hl]

/-- Witness for C4: the non-numeric quantity text `"abc"` makes a matched
record abort `create_stocks` with a parse failure. -/
theorem C4_quantity_normalization_witness :
    Seller.create_stocks [({ kod := "A", kolichestvo := "abc", cena := "10" } :
      Watch)] ["A"] = none :=
  C4_quantity_normalization.2.2.2.2.2.1
    ⟨"A", "abc", "10"⟩ [] ["A"] (by decide) (by decide)

theorem takeWhile_eq_self_of_all {p : Char → Bool} :
    ∀ l : List Char, (∀ c ∈ l, p c = true) → l.takeWhile p = l := by
  intro l h
  induction l with
  | nil => rfl
  | cons a t ih =>
    have ha := h a (List.mem_cons_self a t)
    have ht := ih fun c hc => h c (List.mem_cons_of_mem a hc)
    simp [List.takeWhile_cons, ha, ht]

/-- C5: `price_conversion` maps `"5'990.00 руб."` to `"5990"` and
`"1234"` to `"1234"`; every string of digits without a decimal point is
returned unchanged, and in general the result is the digit subsequence
of the prefix before the first `.`. -/
theorem C5_price_conversion :
    price_conversion "5\x27990.00 руб." = "5990" ∧
    price_conversion "1234" = "1234" ∧
    (∀ s : String, (∀ c ∈ s.toList, c.isDigit = true) → '.' ∉ s.toList →
      price_conversion s = s) ∧
    (∀ s : String,
      price_conversion s =
        String.mk ((s.toList.takeWhile (fun c => c ≠ '.')).filter
          Char.isDigit)) := by
  refine ⟨by decide, by decide, ?_, fun s => rfl⟩
  intro s hd hnd
  have h1 : s.toList.takeWhile (fun c => decide (c ≠ '.')) = s.toList := by
    apply takeWhile_eq_self_of_all
    intro c hc
    simp only [decide_eq_true_eq]
    intro hdot
    exact hnd (hdot ▸ hc)
  unfold price_conversion
  rw [h1, List.filter_eq_self.mpr hd]
  obtain ⟨data⟩ := s
  rfl

/-- Witness for C5: the all-digit, dot-free price text `"777"` is
returned unchanged. -/
theorem C5_price_conversion_witness : price_conversion "777" = "777" :=
  C5_price_conversion.2.2.1 "777" (by decide) (by decide)

theorem divideAux_nil {α : Type} (L n : Nat) : divideAux L ([] : List α) n = [] := by
  cases L <;> cases n <;> rfl

theorem divideAux_stable {α : Type} :
    ∀ (L1 L2 : Nat) (lst : List α) (n : Nat),
      lst.length ≤ L1 → lst.length ≤ L2 →
      divideAux L1 lst n = divideAux L2 lst n := by
  intro L1
  induction L1 with
  | zero =>
    intro L2 lst n h1 h2
    have h0 : lst = [] := List.eq_nil_of_length_eq_zero (Nat.le_zero.mp h1)
    subst h0
    cases L2 <;> rfl
  | succ K ih =>
    intro L2 lst n h1 h2
    cases lst with
    | nil => cases L2 <;> rfl
    | cons a l =>
      cases n with
      | zero =>
        cases L2 with
        | zero => simp at h2
        | succ K2 => rfl
      | succ m =>
        cases L2 with
        | zero => simp at h2
        | succ K2 =>
          show ((a :: l).take (m + 1)) :: divideAux K ((a :: l).drop (m + 1)) (m + 1) =
            ((a :: l).take (m + 1)) :: divideAux K2 ((a :: l).drop (m + 1)) (m + 1)
          have hd : ((a :: l).drop (m + 1)).length = l.length - m := by
            simp only [List.length_drop, List.length_cons]
            omega
          simp only [List.length_cons] at h1 h2
          congr 1
          apply ih K2 _ (m + 1) <;> rw [hd] <;> omega

theorem divideGo_cons {α : Type} (a : α) (l : List α) (m : Nat) :
    divideGo (a :: l) (m + 1) =
      ((a :: l).take (m + 1)) :: divideGo ((a :: l).drop (m + 1)) (m + 1) := by
  show ((a :: l).take (m + 1)) :: divideAux l.length ((a :: l).drop (m + 1)) (m + 1) =
    ((a :: l).take (m + 1)) :: divideAux ((a :: l).drop (m + 1)).length
      ((a :: l).drop (m + 1)) (m + 1)
  congr 1
  apply divideAux_stable l.length _ _ (m + 1) ?_ (le_refl _)
  simp only [List.length_drop, List.length_cons]
  omega

theorem divideGo_join_aux {α : Type} (n : Nat) (hn : 0 < n) :
    ∀ (L : Nat) (lst : List α), lst.length ≤ L → (divideGo lst n).flatten = lst := by
  intro L
  induction L with
  | zero =>
    intro lst hlen
    have h0 : lst = [] := List.eq_nil_of_length_eq_zero (Nat.le_zero.mp hlen)
    subst h0
    simp [divideGo, divideAux_nil]
  | succ L ih =>
    intro lst hlen
    cases lst with
    | nil => simp [divideGo, divideAux_nil]
    | cons a l =>
      cases n with
      | zero => omega
      | succ m =>
        rw [divideGo_cons, List.flatten_cons]
        rw [ih ((a :: l).drop (m + 1)) (by simp at hlen ⊢; omega)]
        exact List.take_append_drop (m + 1) (a :: l)

theorem divideGo_length_aux {α : Type} (n : Nat) (hn : 0 < n) :
    ∀ (L : Nat) (lst : List α), lst.length ≤ L →
      (divideGo lst n).length = (lst.length + n - 1) / n := by
  intro L
  induction L with
  | zero =>
    intro lst hlen
    have h0 : lst = [] := List.eq_nil_of_length_eq_zero (Nat.le_zero.mp hlen)
    subst h0
    simp [divideGo, divideAux_nil, Nat.div_eq_of_lt (by omega : n - 1 < n)]
  | succ L ih =>
    intro lst hlen
    cases lst with
    | nil => simp [divideGo, divideAux_nil, Nat.div_eq_of_lt (by omega : n - 1 < n)]
    | cons a l =>
      cases n with
      | zero => omega
      | succ m =>
        rw [divideGo_cons, List.length_cons]
        rw [ih ((a :: l).drop (m + 1)) (by simp at hlen ⊢; omega)]
        simp only [List.length_drop, List.length_cons]
        by_cases hle : l.length + 1 ≤ m + 1
        · have h1 : l.length + 1 - (m + 1) = 0 := by omega
          rw [h1]
          have h2 : (0 : Nat) + (m + 1) - 1 = m := by omega
          rw [h2, Nat.div_eq_of_lt (by omega : m < m + 1)]
          have h3 : l.length + 1 + (m + 1) - 1 = l.length + (m + 1) := by omega
          rw [h3, Nat.add_div_right _ (by omega : 0 < m + 1)]
          rw [Nat.div_eq_of_lt (by omega : l.length < m + 1)]
        · have h1 : l.length + 1 - (m + 1) + (m + 1) - 1 = l.length - (m + 1) + (m + 1) := by
            omega
          rw [h1, Nat.add_div_right _ (by omega : 0 < m + 1)]
          have h2 : l.length + 1 + (m + 1) - 1 = l.length + (m + 1) := by omega
          rw [h2, Nat.add_div_right _ (by omega : 0 < m + 1)]
          rw [Nat.div_eq_sub_div (by omega : 0 < m + 1) (by omega : m + 1 ≤ l.length)]

theorem divideGo_chunk_le_aux {α : Type} (n : Nat) (hn : 0 < n) :
    ∀ (L : Nat) (lst : List α), lst.length ≤ L →
      ∀ c ∈ divideGo lst n, c.length ≤ n := by
  intro L
  induction L with
  | zero =>
    intro lst hlen c hc
    have h0 : lst = [] := List.eq_nil_of_length_eq_zero (Nat.le_zero.mp hlen)
    subst h0
    simp [divideGo, divideAux_nil] at hc
  | succ L ih =>
    intro lst hlen c hc
    cases lst with
    | nil => simp [divideGo, divideAux_nil] at hc
    | cons a l =>
      cases n with
      | zero => omega
      | succ m =>
        rw [divideGo_cons] at hc
        rcases List.mem_cons.mp hc with hc1 | hc2
        · subst hc1
          exact List.length_take_le (m + 1) (a :: l)
        · exact ih ((a :: l).drop (m + 1)) (by simp at hlen ⊢; omega) c hc2

theorem divideGo_ne_nil {α : Type} (a : α) (l : List α) (m : Nat) :
    divideGo (a :: l) (m + 1) ≠ [] := by
  rw [divideGo_cons]
  exact List.cons_ne_nil _ _

theorem divideGo_dropLast_aux {α : Type} (n : Nat) (hn : 0 < n) :
    ∀ (L : Nat) (lst : List α), lst.length ≤ L →
      ∀ c ∈ (divideGo lst n).dropLast, c.length = n := by
  intro L
  induction L with
  | zero =>
    intro lst hlen c hc
    have h0 : lst = [] := List.eq_nil_of_length_eq_zero (Nat.le_zero.mp hlen)
    subst h0
    simp [divideGo, divideAux_nil] at hc
  | succ L ih =>
    intro lst hlen c hc
    cases lst with
    | nil => simp [divideGo, divideAux_nil] at hc
    | cons a l =>
      cases n with
      | zero => omega
      | succ m =>
        rw [divideGo_cons] at hc
        cases hdrop : (a :: l).drop (m + 1) with
        | nil =>
          rw [hdrop] at hc
          simp [divideGo, divideAux_nil] at hc
        | cons b t =>
          rw [hdrop] at hc
          rw [List.dropLast_cons_of_ne_nil (divideGo_ne_nil b t m)] at hc
          rcases List.mem_cons.mp hc with hc1 | hc2
          · subst hc1
            have hlong : m + 1 ≤ (a :: l).length := by
              by_contra hcon
              have : (a :: l).drop (m + 1) = [] :=
                List.drop_eq_nil_of_le (by omega)
              rw [this] at hdrop
              exact List.noConfusion hdrop
            rw [List.length_take]
            simp only [List.length_cons] at hlong ⊢
            omega
          · have := ih ((a :: l).drop (m + 1)) (by simp at hlen ⊢; omega) c
            rw [hdrop] at this
            exact this hc2

/-- C6: for every list and every positive `n`, `divide` succeeds and
yields exactly `⌈len/n⌉ = (len + n - 1) / n` chunks, whose concatenation
in yield order equals the input; every chunk except possibly the last has
exactly `n` elements, and every chunk has at most `n` elements. -/
theorem C6_divide_partition {α : Type} (lst : List α) (n : Nat) (hn : 0 < n) :
    divide lst n = some (divideGo lst n) ∧
    (divideGo lst n).flatten = lst ∧
    (divideGo lst n).length = (lst.length + n - 1) / n ∧
    (∀ c ∈ (divideGo lst n).dropLast, c.length = n) ∧
    (∀ c ∈ divideGo lst n, c.length ≤ n) := by
  refine ⟨by unfold divide; rw [if_neg (by omega)], ?_, ?_, ?_, ?_⟩
  · exact divideGo_join_aux n hn lst.length lst (le_refl _)
  · exact divideGo_length_aux n hn lst.length lst (le_refl _)
  · exact divideGo_dropLast_aux n hn lst.length lst (le_refl _)
  · exact divideGo_chunk_le_aux n hn lst.length lst (le_refl _)

/-- Witness for C6 at `lst = [1,2,3,4,5]`, `n = 2`: three chunks
`[[1,2],[3,4],[5]]`. -/
theorem C6_divide_partition_witness :
    (divideGo [1, 2, 3, 4, 5] 2 = [[1, 2], [3, 4], [5]]) ∧
    (divide [1, 2, 3, 4, 5] 2 = some (divideGo [1, 2, 3, 4, 5] 2) ∧
     (divideGo [1, 2, 3, 4, 5] 2).flatten = [1, 2, 3, 4, 5] ∧
     (divideGo [1, 2, 3, 4, 5] 2).length =
       (([1, 2, 3, 4, 5] : List Nat).length + 2 - 1) / 2 ∧
     (∀ c ∈ (divideGo [1, 2, 3, 4, 5] 2).dropLast, c.length = 2) ∧
     (∀ c ∈ divideGo [1, 2, 3, 4, 5] 2, c.length ≤ 2)) :=
  ⟨by decide, C6_divide_partition [1, 2, 3, 4, 5] 2 (by decide)⟩

theorem Seller.create_prices_map_sublist (F : List Watch) (I : List String) :
    List.Sublist ((Seller.create_prices F I).map Seller.Price.offer_id)
      (F.map Watch.kod) := by
  induction F with
  | nil => simp [Seller.create_prices]
  | cons w rest ih =>
    unfold Seller.create_prices at ih ⊢
    rw [List.filterMap_cons]
    by_cases hmem : w.kod ∈ I
    · simp only [if_pos hmem, List.map_cons]
      exact ih.cons₂ w.kod
    · simp only [if_neg hmem, List.map_cons]
      exact ih.cons w.kod

/-- C7: the stock updates of `create_stocks` decompose as the matched
part followed by the zero-stock part; the matched part's identifiers are
a subsequence of the feed codes in feed order, the zero-stock part's
identifiers (`fin`) are a subsequence of the identifier sequence in
received order, and the price updates of `create_prices` carry
identifiers forming a subsequence of the feed codes in feed order
(unmatched identifiers get no price update, by C1). -/
theorem C7_output_ordering (F : List Watch) (I : List String)
    (S : List Seller.Stock) (fin : List String)
    (h : Seller.create_stocks F I = some (S, fin)) :
    (∃ st : List Seller.Stock,
      Seller.createStocksLoop F I = some (st, fin) ∧
      S = st ++ fin.map (fun oid => { offer_id := oid, stock := 0 }) ∧
      List.Sublist (st.map Seller.Stock.offer_id) (F.map Watch.kod) ∧
      List.Sublist fin I) ∧
    List.Sublist ((Seller.create_prices F I).map Seller.Price.offer_id)
      (F.map Watch.kod) := by
  refine ⟨?_, Seller.create_prices_map_sublist F I⟩
  unfold Seller.create_stocks at h
  cases hl : Seller.createStocksLoop F I with
  | none => simp [hl] at h
  | some r =>
    obtain ⟨st, fin'⟩ := r
    simp only [hl, Option.some.injEq, Prod.mk.injEq] at h
    obtain ⟨hS, hfin⟩ := h
    subst hfin
    exact ⟨st, rfl, hS.symm,
      Seller.createStocksLoop_mem_codes F I st _ hl,
      Seller.createStocksLoop_fin_sublist F I st _ hl⟩

/-- Witness for C7: feed `[(X, 3, 5), (Z, 4, 6)]`, identifiers `[Y, X]`:
matched stock `X` first, then zero-stock `Y`; prices only for `X`. -/
theorem C7_output_ordering_witness :
    (∃ st : List Seller.Stock,
      Seller.createStocksLoop [⟨"X", "3", "5"⟩, ⟨"Z", "4", "6"⟩] ["Y", "X"] =
        some (st, ["Y"]) ∧
      ([{ offer_id := "X", stock := 3 }, { offer_id := "Y", stock := 0 }] :
          List Seller.Stock) =
        st ++ (["Y"] : List String).map (fun oid => { offer_id := oid, stock := 0 }) ∧
      List.Sublist (st.map Seller.Stock.offer_id)
        (([⟨"X", "3", "5"⟩, ⟨"Z", "4", "6"⟩] : List Watch).map Watch.kod) ∧
      List.Sublist ["Y"] ["Y", "X"]) ∧
    List.Sublist
      ((Seller.create_prices [⟨"X", "3", "5"⟩, ⟨"Z", "4", "6"⟩] ["Y", "X"]).map
        Seller.Price.offer_id)
      (([⟨"X", "3", "5"⟩, ⟨"Z", "4", "6"⟩] : List Watch).map Watch.kod) :=
  C7_output_ordering [⟨"X", "3", "5"⟩, ⟨"Z", "4", "6"⟩] ["Y", "X"]
    [{ offer_id := "X", stock := 3 }, { offer_id := "Y", stock := 0 }] ["Y"]
    (by decide)

theorem sellerPaginate_complete :
    ∀ (pages : List SellerPage) (acc : List Product),
      pages ≠ [] →
      (∀ p ∈ pages,
        p.total = acc.length + ((pages.map SellerPage.items).flatten).length) →
      (∀ p ∈ pages, p.items ≠ []) →
      sellerPaginate pages acc =
        some (acc ++ (pages.map SellerPage.items).flatten, pages.length) := by
  intro pages
  induction pages with
  | nil => intro acc hne; exact absurd rfl hne
  | cons p rest ih =>
    intro acc hne htot hitems
    simp only [sellerPaginate]
    cases rest with
    | nil =>
      have ht := htot p (List.mem_cons_self p [])
      simp only [List.map_cons, List.map_nil, List.flatten_cons, List.flatten_nil,
        List.append_nil, List.length_append] at ht ⊢
      rw [if_pos ht]
      rfl
    | cons q rest2 =>
      have hqne : q.items ≠ [] := hitems q (by simp)
      have ht := htot p (by simp)
      have hcond : ¬ p.total = (acc ++ p.items).length := by
        rw [ht, List.length_append]
        simp only [List.map_cons, List.flatten_cons, List.length_append]
        have hq : 0 < q.items.length := List.length_pos.mpr hqne
        omega
      rw [if_neg hcond]
      rw [ih (acc ++ p.items) (by simp) ?_ ?_]
      · simp
      · intro p' hp'
        have := htot p' (List.mem_cons_of_mem p hp')
        rw [this]
        simp only [List.map_cons, List.flatten_cons, List.length_append]
        omega
      · intro p' hp'
        exact hitems p' (List.mem_cons_of_mem p hp')

theorem marketPaginate_complete :
    ∀ (pages : List MarketPage) (acc : List MEntry),
      pages ≠ [] →
      (∀ p ∈ pages.dropLast, p.nextPageToken ≠ "") →
      (∀ pl, pages.getLast? = some pl → pl.nextPageToken = "") →
      marketPaginate pages acc =
        some (acc ++ (pages.map MarketPage.offerMappingEntries).flatten,
          pages.length) := by
  intro pages
  induction pages with
  | nil => intro acc hne; exact absurd rfl hne
  | cons p rest ih =>
    intro acc hne hmid hlast
    simp only [marketPaginate]
    cases rest with
    | nil =>
      have ht := hlast p rfl
      rw [if_pos ht]
      simp
    | cons q rest2 =>
      have hp : p.nextPageToken ≠ "" := by
        apply hmid
        rw [List.dropLast_cons₂]
        exact List.mem_cons_self p _
      rw [if_neg hp]
      rw [ih (acc ++ p.offerMappingEntries) (by simp) ?_ ?_]
      · simp
      · intro p' hp'
        apply hmid
        rw [List.dropLast_cons₂]
        exact List.mem_cons_of_mem p hp'
      · intro pl hpl
        apply hlast
        rw [List.getLast?_cons_cons]
        exact hpl

/-- C8: against a well-behaved server — seller side: every page's `total`
equals the grand item count and every page is nonempty; market side: the
continuation token is nonempty on every page but the last and empty on
the last — both pagination loops terminate (return `some`), the returned
identifier list is exactly the concatenation of the pages' identifiers
in page order (no identifier dropped or duplicated across page
boundaries), and the number of requests equals the number of pages, so
each page is requested exactly once and no page twice. -/
theorem C8_pagination_termination (spages : List SellerPage)
    (mpages : List MarketPage)
    (hs1 : spages ≠ [])
    (hs2 : ∀ p ∈ spages, p.total = ((spages.map SellerPage.items).flatten).length)
    (hs3 : ∀ p ∈ spages, p.items ≠ [])
    (hm1 : mpages ≠ [])
    (hm2 : ∀ p ∈ mpages.dropLast, p.nextPageToken ≠ "")
    (hm3 : ∀ pl, mpages.getLast? = some pl → pl.nextPageToken = "") :
    seller_get_offer_ids spages =
      some (((spages.map SellerPage.items).flatten).map Product.offer_id,
        spages.length) ∧
    market_get_offer_ids mpages =
      some (((mpages.map MarketPage.offerMappingEntries).flatten).map
        (fun e => e.offer.shopSku), mpages.length) := by
  constructor
  · unfold seller_get_offer_ids
    rw [sellerPaginate_complete spages [] hs1 (by simpa using hs2) hs3]
    simp
  · unfold market_get_offer_ids
    rw [marketPaginate_complete mpages [] hm1 hm2 hm3]
    simp

/-- Witness for C8: a two-page seller server (totals consistent at 3) and
a two-page market server (token `"t"` then empty). -/
theorem C8_pagination_termination_witness :
    seller_get_offer_ids [⟨[⟨"a"⟩], 3, "t1"⟩, ⟨[⟨"b"⟩, ⟨"c"⟩], 3, ""⟩] =
      some (((([⟨[⟨"a"⟩], 3, "t1"⟩, ⟨[⟨"b"⟩, ⟨"c"⟩], 3, ""⟩] :
          List SellerPage).map SellerPage.items).flatten).map Product.offer_id,
        ([⟨[⟨"a"⟩], 3, "t1"⟩, ⟨[⟨"b"⟩, ⟨"c"⟩], 3, ""⟩] :
          List SellerPage).length) ∧
    market_get_offer_ids [⟨[⟨⟨"x"⟩⟩], "t"⟩, ⟨[⟨⟨"y"⟩⟩], ""⟩] =
      some ((((([⟨[⟨⟨"x"⟩⟩], "t"⟩, ⟨[⟨⟨"y"⟩⟩], ""⟩]) :
          List MarketPage).map MarketPage.offerMappingEntries).flatten).map
        (fun e => e.offer.shopSku),
        (([⟨[⟨⟨"x"⟩⟩], "t"⟩, ⟨[⟨⟨"y"⟩⟩], ""⟩]) : List MarketPage).length) :=
  C8_pagination_termination
    [⟨[⟨"a"⟩], 3, "t1"⟩, ⟨[⟨"b"⟩, ⟨"c"⟩], 3, ""⟩]
    [⟨[⟨⟨"x"⟩⟩], "t"⟩, ⟨[⟨⟨"y"⟩⟩], ""⟩]
    (by decide) (by decide) (by decide) (by decide) (by decide) (by decide)

/-- C9 counterexample: `response.raise_for_status()` raises only for
status codes 400-599, so a non-2xx status outside that range does not
abort the flow.  With every catalog-list response carrying HTTP 304 (a
non-2xx status) and a well-formed body, `upload_stocks` raises nothing
and does attempt an upload call — refuting the claim as stated for
arbitrary non-2xx responses. -/
theorem C9_failure_propagation_counterexample :
    ¬ (200 ≤ (304 : Nat) ∧ (304 : Nat) < 300) ∧
    upload_stocks_flow ⟨304, [⟨[⟨"A"⟩], 1, ""⟩]⟩ [⟨"A", "5", "10"⟩] =
      ([[{ offer_id := "A", stock := 5 }]], none) :=
  ⟨by decide, by decide⟩

/-- C9 amended: if the catalog-listing call returns a 4xx or 5xx HTTP
response (e.g. 500), then `upload_stocks` and `upload_prices` raise the
`HTTPError` from `raise_for_status` before any upload call is attempted,
and the error propagates unmodified (same status code, nothing catches
or converts it); statuses outside 400-599 do not raise. -/
theorem C9_failure_propagation_amended (srv : SellerListServer)
    (ws : List Watch) (h4 : 400 ≤ srv.status) (h6 : srv.status < 600) :
    upload_stocks_flow srv ws = ([], some ⟨srv.status⟩) ∧
    upload_prices_flow srv ws = ([], some ⟨srv.status⟩) := by
  have hr : raise_for_status srv.status = Except.error ⟨srv.status⟩ := by
    unfold raise_for_status
    rw [if_pos ⟨h4, h6⟩]
  refine ⟨?_, ?_⟩
  · unfold upload_stocks_flow
    rw [hr]
  · unfold upload_prices_flow
    rw [hr]

/-- Witness for C9 amended at status 500. -/
theorem C9_failure_propagation_amended_witness :
    upload_stocks_flow ⟨500, [⟨[⟨"A"⟩], 1, ""⟩]⟩ [⟨"A", "5", "10"⟩] =
      ([], some ⟨500⟩) ∧
    upload_prices_flow ⟨500, [⟨[⟨"A"⟩], 1, ""⟩]⟩ [⟨"A", "5", "10"⟩] =
      ([], some ⟨500⟩) :=
  C9_failure_propagation_amended ⟨500, [⟨[⟨"A"⟩], 1, ""⟩]⟩ [⟨"A", "5", "10"⟩]
    (by decide) (by decide)

theorem Seller.create_prices_countP (F : List Watch) (I : List String)
    (c : String) :
    (Seller.create_prices F I).countP (fun p => p.offer_id == c) =
      if c ∈ I then F.countP (fun w => w.kod == c) else 0 := by
  induction F with
  | nil => simp [Seller.create_prices]
  | cons w rest ih =>
    unfold Seller.create_prices at ih ⊢
    rw [List.filterMap_cons]
    by_cases hmem : w.kod ∈ I
    · simp only [if_pos hmem, List.countP_cons, ih]
      by_cases hcI : c ∈ I
      · simp [if_pos hcI]
      · have hne : (w.kod == c) = false := by
          rw [beq_eq_false_iff_ne]
          intro hEq
          exact hcI (hEq ▸ hmem)
        simp [if_neg hcI, hne]
    · simp only [if_neg hmem, ih]
      by_cases hcI : c ∈ I
      · have hne : (w.kod == c) = false := by
          rw [beq_eq_false_iff_ne]
          intro hEq
          exact hmem (hEq ▸ hcI)
        simp [if_pos hcI, List.countP_cons, hne]
      · simp [if_neg hcI]

/-- C10: when a code occurs exactly once in the identifiers and at least
twice in the feed, `create_stocks` emits exactly one stock update for it
(the identifier is removed from the working set at the first match, so
later duplicate feed records no longer match), while `create_prices`
(which never removes) emits one price update per feed record with that
code — at least two — so duplicate feed codes duplicate price updates
but never stock updates. -/
theorem C10_duplicate_feed_codes (F : List Watch) (I : List String)
    (c : String) (S : List Seller.Stock) (fin : List String)
    (h : Seller.create_stocks F I = some (S, fin))
    (hI : I.count c = 1)
    (hF : 2 ≤ F.countP (fun w => w.kod == c)) :
    (S.map Seller.Stock.offer_id).count c = 1 ∧
    (Seller.create_prices F I).countP (fun p => p.offer_id == c) =
      F.countP (fun w => w.kod == c) ∧
    2 ≤ (Seller.create_prices F I).countP (fun p => p.offer_id == c) := by
  have hperm := Seller.create_stocks_map_perm h
  have hcI : c ∈ I := List.count_pos_iff.mp (by omega)
  refine ⟨by rw [hperm.count_eq c, hI], ?_, ?_⟩
  · rw [Seller.create_prices_countP F I c, if_pos hcI]
  · rw [Seller.create_prices_countP F I c, if_pos hcI]
    exact hF

/-- Witness for C10: feed `[(A, 5, 10), (A, 7, 20)]`, identifiers `[A]`:
one stock update for `A`, two price updates for `A`. -/
theorem C10_duplicate_feed_codes_witness :
    (([{ offer_id := "A", stock := 5 }] : List Seller.Stock).map
      Seller.Stock.offer_id).count "A" = 1 ∧
    (Seller.create_prices [⟨"A", "5", "10"⟩, ⟨"A", "7", "20"⟩] ["A"]).countP
        (fun p => p.offer_id == "A") =
      ([⟨"A", "5", "10"⟩, ⟨"A", "7", "20"⟩] : List Watch).countP
        (fun w => w.kod == "A") ∧
    2 ≤ (Seller.create_prices [⟨"A", "5", "10"⟩, ⟨"A", "7", "20"⟩]
        ["A"]).countP (fun p => p.offer_id == "A") :=
  C10_duplicate_feed_codes [⟨"A", "5", "10"⟩, ⟨"A", "7", "20"⟩] ["A"] "A"
    [{ offer_id := "A", stock := 5 }] []
    (by decide) (by decide) (by decide)

end SellerApis
